import Mathlib

namespace ILeaf

/-! Shallow embedding of the outbound dispatch layer of the iLeaf traffic
forwarder: the failover TCP handler (`src/leaf/src/proxy/failover/tcp.rs`),
the try-all TCP handler (`src/leaf/src/proxy/tryall/tcp.rs`), the redirect
UDP handler (`src/leaf/src/proxy/redirect/udp.rs`) and the SOCKS5 outbound
UDP handler (`src/leaf/src/proxy/socks/outbound/udp.rs`).  Asynchronous
I/O is modelled by passing each child handler's behaviour (success flag,
produced stream, error payload, wall-clock duration) as explicit data;
`u128` and `u32` machine integers are `Nat`, with an explicit `% 2 ^ 32`
where `u32` wrapping matters. -/

/-- A socket address (`std::net::SocketAddr`), abstracted to a numeric ip
and a port. -/
structure Addr where
  ip : Nat
  port : Nat
  deriving DecidableEq, Repr

/-- Behaviour of one child handler's `handle(session)` call: whether the
call returns `Ok`, the stream it would produce, the error payload it
would produce, and the wall-clock duration until it completes. -/
structure ChildSpec where
  ok : Bool
  stream : Nat
  errMsg : Nat
  dur : Nat
  deriving DecidableEq, Repr

/-! ## Redirect UDP handler (`src/leaf/src/proxy/redirect/udp.rs`) -/

/-- Models `redirect::udp::DatagramRecvHalf::recv_from` (lines 82-85): the
wrapped socket half yields `(n, source)`; the wrapper reports the recorded
target as the peer, discarding the actual source address. -/
def redirectRecvFrom (target : Addr) (und : Nat × Addr) : Nat × Addr :=
  (und.1, target)

/-- Models `redirect::udp::DatagramSendHalf::send_to` (lines 92-94),
returning the datagram put on the wire — payload and destination: the
caller-supplied peer (the ignored `_target` parameter) is discarded and
the recorded target `self.1` is used. -/
def redirectSendTo (target : Addr) (buf : List Nat) (_peer : Addr) :
    List Nat × Addr :=
  (buf, target)

/-- Outcome of `redirect::udp::Handler::connect`. -/
inductive ConnectOutcome where
  | bindErr
  | panicked
  | ok (target : Addr)
  deriving DecidableEq, Repr

/-- Models `redirect::udp::Handler::connect` (lines 41-55): bind a fresh
local socket (a bind failure propagates with `?`), then evaluate
`self.address.parse::<IpAddr>().unwrap()` — `parsed` abstracts the parse
outcome of the configured address string — and build the datagram target
with `SocketAddr::new(ip, self.port)`.  Unwrapping a failed parse is a
panic. -/
def redirectConnect (bindOk : Bool) (parsed : Option Nat) (port : Nat) :
    ConnectOutcome :=
  if bindOk then
    match parsed with
    | none => ConnectOutcome.panicked
    | some ip => ConnectOutcome.ok ⟨ip, port⟩
  else ConnectOutcome.bindErr

/-! ## SOCKS5 outbound UDP handler (`src/leaf/src/proxy/socks/outbound/udp.rs`) -/

/-- Models `async_socks5::AddrKind`: a numeric socket address, or a domain
name (as a byte list) with a port. -/
inductive AddrKind where
  | ip (a : Addr)
  | domain (d : List Nat) (p : Nat)
  deriving DecidableEq, Repr

/-- Errors surfaced by the SOCKS5 UDP receive half. -/
inductive SocksRecvError where
  | relayErr (e : Nat)
  | unsupportedAddress
  deriving DecidableEq, Repr

/-- Models `socks::outbound::udp::DatagramRecvHalf::recv_from`
(lines 97-110): `und` is the relay's `recv_from` outcome `(n, addr)` (or
its error, mapped into an `Other` error).  An `Ip` reply surfaces
`(n, addr)`; any other kind fails with "udp receiving domain address is
not supported". -/
def socksRecvFrom (und : Except Nat (Nat × AddrKind)) :
    Except SocksRecvError (Nat × Addr) :=
  match und with
  | Except.error e => Except.error (SocksRecvError.relayErr e)
  | Except.ok (n, AddrKind.ip a) => Except.ok (n, a)
  | Except.ok (_, AddrKind.domain _ _) =>
    Except.error SocksRecvError.unsupportedAddress

/-! ## Measure ordering (`src/leaf/src/proxy/failover/tcp.rs`, lines 23-24) -/

/-- The comparison produced by `#[derive(PartialOrd, Ord)]` on
`struct Measure(usize, u128)`: Rust derives the lexicographic order over
the fields in declaration order, so field `.0` (the index) is compared
first and field `.1` (the latency) only on equal indices. -/
def measureCmp (a b : Nat × Nat) : Ordering :=
  match compare a.1 b.1 with
  | Ordering.eq => compare a.2 b.2
  | o => o

/-! ## Health probe (`src/leaf/src/proxy/failover/tcp.rs`, lines 48-82) -/

/-- How far the dial / write / one-byte-read sequence of the probe body
`single_measure` gets for one child. -/
inductive ProbeOutcome where
  | dialFail
  | writeFail
  | readFail
  | success
  deriving DecidableEq, Repr

/-- One run of the probe body for a child: its outcome, and the wall-clock
milliseconds from just before the dial to the point the body would
return. -/
structure ProbeRun where
  outcome : ProbeOutcome
  elapsedMs : Nat
  deriving DecidableEq, Repr

/-- The value `u128::MAX`. -/
def U128_MAX : Nat := 2 ^ 128 - 1

/-- The latency the health-check loop records for one child:
`timeout(Duration::from_secs(10), single_measure)` maps a body that has
not finished within 10 000 ms to the `u128::MAX - 1` sentinel; otherwise
the body records `u128::MAX` when the dial failed, `u128::MAX - 2` when
the write failed after a successful dial, `u128::MAX - 3` when the read
failed after a successful write, and the elapsed milliseconds when dial,
write and read all succeeded. -/
def probeLatency (r : ProbeRun) : Nat :=
  if 10000 < r.elapsedMs then U128_MAX - 1
  else
    match r.outcome with
    | ProbeOutcome.dialFail => U128_MAX
    | ProbeOutcome.writeFail => U128_MAX - 2
    | ProbeOutcome.readFail => U128_MAX - 3
    | ProbeOutcome.success => r.elapsedMs

/-- The `Measure(i, ...)` value pushed for child `i`. -/
def probeMeasure (i : Nat) (r : ProbeRun) : Nat × Nat := (i, probeLatency r)

/-! ## Failover dial path (`src/leaf/src/proxy/failover/tcp.rs`, lines 147-186) -/

/-- Result of one failover attempt
`timeout(Duration::from_secs(fail_timeout), actors[i].handle(sess, None))`. -/
inductive ChildResult where
  | ok (s : Nat)
  | err
  | timeout
  deriving DecidableEq, Repr

/-- Models the timeout-bounded attempt: when the child completes within
`ft` its own result and duration stand; otherwise the timer fires after
exactly `ft` and the attempt counts as a timeout. -/
def attemptOutcome (ft : Nat) (c : ChildSpec) : ChildResult × Nat :=
  if c.dur ≤ ft then
    (if c.ok then (ChildResult.ok c.stream, c.dur)
     else (ChildResult.err, c.dur))
  else (ChildResult.timeout, ft)

/-- Errors surfaced by the failover dial path. -/
inductive FailoverError where
  | invalidConfig
  | outboundExhausted
  deriving DecidableEq, Repr

/-- Models `failover::tcp::Handler::handle` iterating a snapshot of the
schedule: an index `i ≥ actors.len()` returns the "invalid actor index"
error at once; a child error or timeout advances to the next index; a
child success returns immediately; an exhausted snapshot returns the
"all outbound attempts failed" error.  The result is paired with the
total elapsed time of the attempts made. -/
def failoverHandle (n ft : Nat) (cs : Nat → ChildSpec) :
    List Nat → Except FailoverError Nat × Nat
  | [] => (Except.error FailoverError.outboundExhausted, 0)
  | i :: rest =>
    if n ≤ i then (Except.error FailoverError.invalidConfig, 0)
    else
      match attemptOutcome ft (cs i) with
      | (ChildResult.ok s, d) => (Except.ok s, d)
      | (ChildResult.err, d) =>
        let r := failoverHandle n ft cs rest
        (r.1, d + r.2)
      | (ChildResult.timeout, d) =>
        let r := failoverHandle n ft cs rest
        (r.1, d + r.2)

/-- The attempt for child `i` succeeds within the timeout bound. -/
def attemptSucceeds (ft : Nat) (cs : Nat → ChildSpec) (i : Nat) : Bool :=
  decide ((cs i).dur ≤ ft) && (cs i).ok

/-! ## Try-all handler (`src/leaf/src/proxy/tryall/tcp.rs`, lines 27-53) -/

/-- The staircase delay of try-all child `i`:
`(self.delay_base * i as u32) as u64` is a `u32` product, so it wraps
modulo `2 ^ 32` (the code skips the sleep entirely when `delay_base == 0`,
which equals sleeping `0` ms). -/
def delayOf (delayBase i : Nat) : Nat :=
  delayBase * (i % 2 ^ 32) % 2 ^ 32

/-- Virtual completion time of try-all child `i`: its staircase delay plus
the duration of its own `handle` call. -/
def completionTime (db : Nat) (cs : Nat → ChildSpec) (i : Nat) : Nat :=
  delayOf db i + (cs i).dur

/-- First index of `l` minimising `f`; ties go to the earliest listed
index, matching in-order polling. -/
def argminBy (f : Nat → Nat) : List Nat → Option Nat
  | [] => none
  | i :: rest =>
    match argminBy f rest with
    | none => some i
    | some j => if f i ≤ f j then some i else some j

/-- Last index of `l` maximising `f`; ties go to the latest listed index,
matching the temporally last completion. -/
def argmaxBy (f : Nat → Nat) : List Nat → Option Nat
  | [] => none
  | i :: rest =>
    match argmaxBy f rest with
    | none => some i
    | some j => if f j < f i then some i else some j

/-- Outcome of `tryall::tcp::Handler::handle`. -/
inductive TryallResult where
  | ok (s : Nat)
  | exhausted (lastErr : Nat)
  | panicked
  deriving DecidableEq, Repr

/-- Models `tryall::tcp::Handler::handle`: one future per child, child `i`
sleeping `delayOf db i` milliseconds before dialing;
`futures::future::select_ok` races them, returning the first success and
otherwise the error of the last future to fail, and it panics when
handed an empty collection of futures.  The first success is the
succeeding child of least completion time (ties to the least index, as
`select_ok` polls in order); the last error is the failing child of
greatest completion time. -/
def tryallHandle (n db : Nat) (cs : Nat → ChildSpec) : TryallResult :=
  let idxs := List.range n
  match argminBy (completionTime db cs) (idxs.filter fun i => (cs i).ok) with
  | some w => TryallResult.ok (cs w).stream
  | none =>
    match argmaxBy (completionTime db cs) idxs with
    | some l => TryallResult.exhausted (cs l).errMsg
    | none => TryallResult.panicked

/-! ## Health-check schedule rewrite (`src/leaf/src/proxy/failover/tcp.rs`, lines 85-118) -/

/-- Models Rust's `Iterator::enumerate` starting at index `k`: pairs each
element with its index. -/
def enumFrom (k : Nat) : List Nat → List (Nat × Nat)
  | [] => []
  | x :: xs => (k, x) :: enumFrom (k + 1) xs

/-- The strict "latency first, index second" order on measure pairs. -/
def mLt (a b : Nat × Nat) : Prop :=
  a.2 < b.2 ∨ (a.2 = b.2 ∧ a.1 < b.1)

/-- Insertion step of a stable sort by latency: `m` passes every earlier
element of strictly smaller latency and lands before the first element of
latency at least its own, so that equal latencies keep their original
order. -/
def insertMeasure (m : Nat × Nat) : List (Nat × Nat) → List (Nat × Nat)
  | [] => [m]
  | x :: xs => if x.2 < m.2 then x :: insertMeasure m xs else m :: x :: xs

/-- Models `measures.sort_by(|a, b| a.1.cmp(&b.1))` (line 85):
`slice::sort_by` is a stable sort, and a stable sort is a unique function
of the comparator, so the insertion-sort realisation chosen here computes
the same list. -/
def sortMeasures : List (Nat × Nat) → List (Nat × Nat)
  | [] => []
  | x :: xs => insertMeasure x (sortMeasures xs)

/-- Models one schedule rewrite of the failover health-check loop
(lines 85-118) over the measured latencies `ls` — the probe loop pushes
`Measure(i, ls[i])` for `i` in `0..n` in index order: sort stably by
latency, clear the schedule, then push every index in sorted order when
`failover` is set, and only `measures[0].0` otherwise.  The `none` result
models the index panic of `measures[0]` on an empty child list. -/
def healthCheckSchedule (failover : Bool) (ls : List Nat) :
    Option (List Nat) :=
  if failover then some ((sortMeasures (enumFrom 0 ls)).map Prod.fst)
  else
    match sortMeasures (enumFrom 0 ls) with
    | [] => none
    | m :: _ => some [m.1]

/-- Latency of child `i` in the latency list `ls`. -/
def latOf (ls : List Nat) (i : Nat) : Nat := ls.getD i 0

/-- The "ascending latency, ties by index" order on child indices. -/
def schedLt (ls : List Nat) (i j : Nat) : Prop :=
  latOf ls i < latOf ls j ∨ (latOf ls i = latOf ls j ∧ i < j)

/-- Child table of spec scenario E4: child 0 succeeds in 30 ms, child 1
succeeds in 10 ms (used with delay base 50 ms). -/
def e4Children : Nat → ChildSpec :=
  fun i => if i = 0 then ⟨true, 10, 0, 30⟩ else ⟨true, 11, 0, 10⟩

/-! ## Theorems -/

/-- C5: for every datagram association returned by the redirect UDP
handler with recorded target `t`, `send_to` sends the payload to `t` and
not to the caller-supplied peer `q` (whenever `q` differs from `t`), and
`recv_from` reports `t` as the peer regardless of the datagram's actual
source, so consumers observe the stable logical peer `t`. -/
theorem redirect_stable_logical_peer (target peer : Addr) (buf : List Nat)
    (und : Nat × Addr) :
    (redirectSendTo target buf peer).2 = target ∧
    (peer ≠ target → (redirectSendTo target buf peer).2 ≠ peer) ∧
    (redirectSendTo target buf peer).1 = buf ∧
    (redirectRecvFrom target und).2 = target ∧
    (redirectRecvFrom target und).1 = und.1 :=
  ⟨rfl, fun h hc => h hc.symm, rfl, rfl, rfl⟩

/-- Witness for C5 at a concrete target, peer, payload and incoming
datagram. -/
theorem redirect_stable_logical_peer_witness :
    (redirectSendTo ⟨3, 4⟩ [9, 9] ⟨1, 2⟩).2 = ⟨3, 4⟩ ∧
    (redirectSendTo ⟨3, 4⟩ [9, 9] ⟨1, 2⟩).2 ≠ ⟨1, 2⟩ ∧
    (redirectRecvFrom ⟨3, 4⟩ (2, ⟨7, 7⟩)).2 = ⟨3, 4⟩ :=
  ⟨(redirect_stable_logical_peer ⟨3, 4⟩ ⟨1, 2⟩ [9, 9] (2, ⟨7, 7⟩)).1,
   (redirect_stable_logical_peer ⟨3, 4⟩ ⟨1, 2⟩ [9, 9] (2, ⟨7, 7⟩)).2.1
     (by decide),
   (redirect_stable_logical_peer ⟨3, 4⟩ ⟨1, 2⟩ [9, 9] (2, ⟨7, 7⟩)).2.2.2.1⟩

/-- C6: for the SOCKS5 UDP outbound association's `recv_from`, a reply
address of domain form fails with the unsupported-address error, a
numeric reply address returns the byte count together with that address,
and only numeric reply addresses are ever surfaced to callers. -/
theorem socks_recv_only_numeric (n p : Nat) (d : List Nat) (a : Addr) :
    socksRecvFrom (Except.ok (n, AddrKind.domain d p)) =
      Except.error SocksRecvError.unsupportedAddress ∧
    socksRecvFrom (Except.ok (n, AddrKind.ip a)) = Except.ok (n, a) ∧
    (∀ und m b, socksRecvFrom und = Except.ok (m, b) →
      und = Except.ok (m, AddrKind.ip b)) := by
  refine ⟨rfl, rfl, ?_⟩
  intro und m b h
  match und with
  | Except.error e => exact absurd h (by simp [socksRecvFrom])
  | Except.ok (k, AddrKind.domain dd pp) =>
    exact absurd h (by simp [socksRecvFrom])
  | Except.ok (k, AddrKind.ip c) =>
    simp only [socksRecvFrom, Except.ok.injEq, Prod.mk.injEq] at h
    obtain ⟨h1, h2⟩ := h
    subst h1
    subst h2
    rfl

/-- Witness for C6 at concrete reply addresses. -/
theorem socks_recv_only_numeric_witness :
    socksRecvFrom (Except.ok (3, AddrKind.domain [1] 80)) =
      Except.error SocksRecvError.unsupportedAddress ∧
    socksRecvFrom (Except.ok (3, AddrKind.ip ⟨5, 6⟩)) = Except.ok (3, ⟨5, 6⟩) ∧
    (Except.ok (3, AddrKind.ip (⟨5, 6⟩ : Addr)) : Except Nat (Nat × AddrKind)) =
      Except.ok (3, AddrKind.ip ⟨5, 6⟩) :=
  ⟨(socks_recv_only_numeric 3 80 [1] ⟨5, 6⟩).1,
   (socks_recv_only_numeric 3 80 [1] ⟨5, 6⟩).2.1,
   (socks_recv_only_numeric 3 80 [1] ⟨5, 6⟩).2.2
     (Except.ok (3, AddrKind.ip ⟨5, 6⟩)) 3 ⟨5, 6⟩
     (socks_recv_only_numeric 3 80 [1] ⟨5, 6⟩).2.1⟩

/-- C7 counterexample: under the derived `Measure` comparison the pair
`(0, 100)` compares smaller than `(1, 5)` although its latency `100` is
the larger of the two — a latency-first order would compare it
greater. -/
theorem measure_ord_not_latency_first :
    measureCmp (0, 100) (1, 5) = Ordering.lt ∧ 5 < 100 := by decide

/-- C7 (amended): the derived `Measure` comparison is lexicographic with
the index field first — a measure compares smaller exactly when its index
is smaller, or the indices are equal and its latency is smaller. -/
theorem measure_ord_index_then_latency (a b : Nat × Nat) :
    measureCmp a b = Ordering.lt ↔
      a.1 < b.1 ∨ (a.1 = b.1 ∧ a.2 < b.2) := by
  unfold measureCmp
  rcases Nat.lt_trichotomy a.1 b.1 with h | h | h
  · have hc : compare a.1 b.1 = Ordering.lt := Nat.compare_eq_lt.mpr h
    simp [hc, h]
  · have hc : compare a.1 b.1 = Ordering.eq := Nat.compare_eq_eq.mpr h
    simp only [hc]
    simp [Nat.compare_eq_lt, h]
  · have hc : compare a.1 b.1 = Ordering.gt := Nat.compare_eq_gt.mpr h
    simp only [hc]
    constructor
    · intro hlt
      exact absurd hlt (by simp)
    · intro hlt
      omega

/-- C3: the health probe records the elapsed milliseconds when dial,
write and one-byte read all succeed within the 10-second bound,
`u128::MAX` when the dial fails, `u128::MAX - 1` when the 10-second
probe bound elapses, `u128::MAX - 2` when the write fails after a
successful dial, and `u128::MAX - 3` when the read fails after a
successful write; consequently every success measure is strictly smaller
than every failure sentinel. -/
theorem probe_sentinels_success_beats_failure :
    (∀ e, e ≤ 10000 →
      probeLatency ⟨ProbeOutcome.dialFail, e⟩ = U128_MAX ∧
      probeLatency ⟨ProbeOutcome.writeFail, e⟩ = U128_MAX - 2 ∧
      probeLatency ⟨ProbeOutcome.readFail, e⟩ = U128_MAX - 3 ∧
      probeLatency ⟨ProbeOutcome.success, e⟩ = e) ∧
    (∀ r : ProbeRun, 10000 < r.elapsedMs → probeLatency r = U128_MAX - 1) ∧
    (∀ i j : Nat, ∀ r s : ProbeRun, r.outcome = ProbeOutcome.success →
      r.elapsedMs ≤ 10000 →
      (s.outcome ≠ ProbeOutcome.success ∨ 10000 < s.elapsedMs) →
      (probeMeasure i r).2 < (probeMeasure j s).2) := by
  have hsent : ∀ k, k ≤ 3 → 10000 < U128_MAX - k := by
    intro k hk
    have : U128_MAX - 3 ≤ U128_MAX - k := by
      apply Nat.sub_le_sub_left hk
    have h3 : 10000 < U128_MAX - 3 := by decide
    omega
  refine ⟨?_, ?_, ?_⟩
  · intro e he
    have hne : ¬ 10000 < e := Nat.not_lt.mpr he
    refine ⟨?_, ?_, ?_, ?_⟩ <;> simp [probeLatency, hne]
  · intro r hr
    simp [probeLatency, hr]
  · intro i j r s hro hrb hs
    have h1 : (probeMeasure i r).2 = r.elapsedMs := by
      simp [probeMeasure, probeLatency, Nat.not_lt.mpr hrb, hro]
    have h2 : U128_MAX - 3 ≤ (probeMeasure j s).2 := by
      by_cases ht : 10000 < s.elapsedMs
      · have hv : (probeMeasure j s).2 = U128_MAX - 1 := by
          simp [probeMeasure, probeLatency, ht]
        rw [hv]
        exact Nat.sub_le_sub_left (by decide) _
      · rcases hs with hs | hs
        · cases hso : s.outcome with
          | success => exact absurd hso hs
          | dialFail =>
            have hv : (probeMeasure j s).2 = U128_MAX := by
              simp [probeMeasure, probeLatency, ht, hso]
            rw [hv]
            exact Nat.sub_le _ _
          | writeFail =>
            have hv : (probeMeasure j s).2 = U128_MAX - 2 := by
              simp [probeMeasure, probeLatency, ht, hso]
            rw [hv]
            exact Nat.sub_le_sub_left (by decide) _
          | readFail =>
            have hv : (probeMeasure j s).2 = U128_MAX - 3 := by
              simp [probeMeasure, probeLatency, ht, hso]
            rw [hv]
        · exact absurd hs ht
    have h3 : 10000 < U128_MAX - 3 := by decide
    omega

/-- Witness for C3 at concrete probe runs. -/
theorem probe_sentinels_success_beats_failure_witness :
    probeLatency ⟨ProbeOutcome.dialFail, 5⟩ = U128_MAX ∧
    probeLatency ⟨ProbeOutcome.writeFail, 20000⟩ = U128_MAX - 1 ∧
    (probeMeasure 0 ⟨ProbeOutcome.success, 42⟩).2 <
      (probeMeasure 1 ⟨ProbeOutcome.readFail, 42⟩).2 :=
  ⟨(probe_sentinels_success_beats_failure.1 5 (by decide)).1,
   probe_sentinels_success_beats_failure.2.1 ⟨ProbeOutcome.writeFail, 20000⟩
     (by decide),
   probe_sentinels_success_beats_failure.2.2 0 1
     ⟨ProbeOutcome.success, 42⟩ ⟨ProbeOutcome.readFail, 42⟩ rfl (by decide)
     (Or.inl (by decide))⟩

/-- An `argminBy` result is `none` exactly on the empty list. -/
theorem argminBy_eq_none_iff {f : Nat → Nat} {l : List Nat} :
    argminBy f l = none ↔ l = [] := by
  cases l with
  | nil => simp [argminBy]
  | cons a rest =>
    simp only [argminBy]
    cases hr : argminBy f rest with
    | none => simp
    | some j => by_cases hij : f a ≤ f j <;> simp [hij]

/-- An `argminBy` result is a member of the list minimising `f`. -/
theorem argminBy_min {f : Nat → Nat} {l : List Nat} {j : Nat}
    (h : argminBy f l = some j) : j ∈ l ∧ ∀ i ∈ l, f j ≤ f i := by
  induction l generalizing j with
  | nil => exact absurd h (by simp [argminBy])
  | cons a rest ih =>
    rw [argminBy] at h
    cases hr : argminBy f rest with
    | none =>
      rw [hr] at h
      cases h
      have hre : rest = [] := argminBy_eq_none_iff.mp hr
      subst hre
      refine ⟨List.mem_cons_self a [], ?_⟩
      intro i hi
      rcases List.mem_cons.mp hi with rfl | hi
      · exact Nat.le_refl _
      · exact absurd hi (List.not_mem_nil i)
    | some k =>
      rw [hr] at h
      obtain ⟨hk1, hk2⟩ := ih hr
      have h' : (if f a ≤ f k then some a else some k) = some j := h
      by_cases hak : f a ≤ f k
      · rw [if_pos hak] at h'
        cases h'
        refine ⟨List.mem_cons_self a rest, ?_⟩
        intro i hi
        rcases List.mem_cons.mp hi with rfl | hi
        · exact Nat.le_refl _
        · exact Nat.le_trans hak (hk2 i hi)
      · rw [if_neg hak] at h'
        cases h'
        refine ⟨List.mem_cons_of_mem a hk1, ?_⟩
        intro i hi
        rcases List.mem_cons.mp hi with rfl | hi
        · exact Nat.le_of_lt (Nat.lt_of_not_le hak)
        · exact hk2 i hi

/-- An `argmaxBy` result is `none` exactly on the empty list. -/
theorem argmaxBy_eq_none_iff {f : Nat → Nat} {l : List Nat} :
    argmaxBy f l = none ↔ l = [] := by
  cases l with
  | nil => simp [argmaxBy]
  | cons a rest =>
    simp only [argmaxBy]
    cases hr : argmaxBy f rest with
    | none => simp
    | some j => by_cases hij : f j < f a <;> simp [hij]

/-- An `argmaxBy` result is a member of the list maximising `f`. -/
theorem argmaxBy_max {f : Nat → Nat} {l : List Nat} {j : Nat}
    (h : argmaxBy f l = some j) : j ∈ l ∧ ∀ i ∈ l, f i ≤ f j := by
  induction l generalizing j with
  | nil => exact absurd h (by simp [argmaxBy])
  | cons a rest ih =>
    rw [argmaxBy] at h
    cases hr : argmaxBy f rest with
    | none =>
      rw [hr] at h
      cases h
      have hre : rest = [] := argmaxBy_eq_none_iff.mp hr
      subst hre
      refine ⟨List.mem_cons_self a [], ?_⟩
      intro i hi
      rcases List.mem_cons.mp hi with rfl | hi
      · exact Nat.le_refl _
      · exact absurd hi (List.not_mem_nil i)
    | some k =>
      rw [hr] at h
      obtain ⟨hk1, hk2⟩ := ih hr
      have h' : (if f k < f a then some a else some k) = some j := h
      by_cases hka : f k < f a
      · rw [if_pos hka] at h'
        cases h'
        refine ⟨List.mem_cons_self a rest, ?_⟩
        intro i hi
        rcases List.mem_cons.mp hi with rfl | hi
        · exact Nat.le_refl _
        · exact Nat.le_trans (hk2 i hi) (Nat.le_of_lt hka)
      · rw [if_neg hka] at h'
        cases h'
        refine ⟨List.mem_cons_of_mem a hk1, ?_⟩
        intro i hi
        rcases List.mem_cons.mp hi with rfl | hi
        · exact Nat.le_of_not_lt hka
        · exact hk2 i hi

/-- C4 counterexample: the staircase delay is computed as a `u32`
product, so with `delay_base = 2 ^ 31` the child of index `2` waits `0`
milliseconds rather than the claimed `delay_base * 2 = 2 ^ 32`. -/
theorem tryall_delay_wraps :
    delayOf (2 ^ 31) 2 = 0 ∧ 2 ^ 31 * 2 ≠ 0 := by decide

/-- C4 (amended): for the try-all handler, child `i` starts only after
waiting `delay_base * i` milliseconds computed as a `u32` product, i.e.
`delay_base * i mod 2 ^ 32`; the race returns the stream of a succeeding
child of least completion time, and when every child fails the result
wraps the error of the last child to complete — one of greatest
completion time — as the exhausted error. -/
theorem tryall_first_success_or_last_error (n db : Nat)
    (cs : Nat → ChildSpec) (hn : 0 < n) :
    (∀ i, i < 2 ^ 32 → delayOf db i = db * i % 2 ^ 32) ∧
    ((∃ i, i < n ∧ (cs i).ok = true) →
      ∃ w, w < n ∧ (cs w).ok = true ∧
        tryallHandle n db cs = TryallResult.ok (cs w).stream ∧
        ∀ j, j < n → (cs j).ok = true →
          completionTime db cs w ≤ completionTime db cs j) ∧
    ((∀ i, i < n → (cs i).ok = false) →
      ∃ l, l < n ∧
        tryallHandle n db cs = TryallResult.exhausted (cs l).errMsg ∧
        ∀ j, j < n → completionTime db cs j ≤ completionTime db cs l) := by
  refine ⟨?_, ?_, ?_⟩
  · intro i hi
    simp [delayOf, Nat.mod_eq_of_lt hi]
  · rintro ⟨i, hi, hoki⟩
    have hmem : i ∈ (List.range n).filter (fun x => (cs x).ok) := by
      simp [List.mem_filter, List.mem_range, hi, hoki]
    have hne : (List.range n).filter (fun x => (cs x).ok) ≠ [] := by
      intro h0
      rw [h0] at hmem
      exact absurd hmem (List.not_mem_nil i)
    cases hmin : argminBy (completionTime db cs)
        ((List.range n).filter fun x => (cs x).ok) with
    | none => exact absurd (argminBy_eq_none_iff.mp hmin) hne
    | some w =>
      obtain ⟨hw1, hw2⟩ := argminBy_min hmin
      have hwf := List.mem_filter.mp hw1
      refine ⟨w, List.mem_range.mp hwf.1, hwf.2, ?_, ?_⟩
      · simp [tryallHandle, hmin]
      · intro j hj hokj
        exact hw2 j (by simp [List.mem_filter, List.mem_range, hj, hokj])
  · intro hall
    have hfe : (List.range n).filter (fun x => (cs x).ok) = [] := by
      rw [List.filter_eq_nil_iff]
      intro a ha
      simp [hall a (List.mem_range.mp ha)]
    have hrn : List.range n ≠ [] := by
      rw [Ne, List.range_eq_nil]
      omega
    cases hmax : argmaxBy (completionTime db cs) (List.range n) with
    | none => exact absurd (argmaxBy_eq_none_iff.mp hmax) hrn
    | some l =>
      obtain ⟨hl1, hl2⟩ := argmaxBy_max hmax
      have hminnone : argminBy (completionTime db cs)
          ((List.range n).filter fun x => (cs x).ok) = none := by
        rw [argminBy_eq_none_iff]
        exact hfe
      refine ⟨l, List.mem_range.mp hl1, ?_, ?_⟩
      · simp [tryallHandle, hminnone, hmax]
      · intro j hj
        exact hl2 j (List.mem_range.mpr hj)

/-- Witness for C4 on spec scenario E4. -/
theorem tryall_first_success_or_last_error_witness :
    (0 : Nat) < 2 ∧
    ((∀ i, i < 2 ^ 32 → delayOf 50 i = 50 * i % 2 ^ 32) ∧
     ((∃ i, i < 2 ∧ (e4Children i).ok = true) →
       ∃ w, w < 2 ∧ (e4Children w).ok = true ∧
         tryallHandle 2 50 e4Children = TryallResult.ok (e4Children w).stream ∧
         ∀ j, j < 2 → (e4Children j).ok = true →
           completionTime 50 e4Children w ≤ completionTime 50 e4Children j) ∧
     ((∀ i, i < 2 → (e4Children i).ok = false) →
       ∃ l, l < 2 ∧
         tryallHandle 2 50 e4Children =
           TryallResult.exhausted (e4Children l).errMsg ∧
         ∀ j, j < 2 → completionTime 50 e4Children j ≤
           completionTime 50 e4Children l)) :=
  ⟨by decide, tryall_first_success_or_last_error 2 50 e4Children (by decide)⟩

/-- C9: try-all constructed with an empty child list does not return the
`OutboundExhausted` error from `handle`: `select_ok` applied to the empty
collection of attempts panics, so a non-empty child list is a
precondition for `handle` to return at all. -/
theorem tryall_empty_children_panics (db : Nat) (cs : Nat → ChildSpec) :
    tryallHandle 0 db cs = TryallResult.panicked ∧
    ∀ e, tryallHandle 0 db cs ≠ TryallResult.exhausted e := by
  refine ⟨rfl, fun e h => ?_⟩
  exact TryallResult.noConfusion
    ((rfl : tryallHandle 0 db cs = TryallResult.panicked).symm.trans h)

/-- Witness for C9 at a concrete delay base and child table. -/
theorem tryall_empty_children_panics_witness :
    tryallHandle 0 3 (fun _ => ⟨false, 0, 0, 0⟩) = TryallResult.panicked ∧
    tryallHandle 0 3 (fun _ => ⟨false, 0, 0, 0⟩) ≠ TryallResult.exhausted 0 :=
  ⟨(tryall_empty_children_panics 3 (fun _ => ⟨false, 0, 0, 0⟩)).1,
   (tryall_empty_children_panics 3 (fun _ => ⟨false, 0, 0, 0⟩)).2 0⟩

/-- C10: the redirect UDP handler parses its configured address as a
numeric IP only inside `connect` and unwraps the result: when the local
bind succeeded but the configured address does not parse, `connect`
panics instead of returning an error, and every `Ok` result carries a
target built from a successfully parsed address and the configured
port. -/
theorem redirect_connect_parse_unwrap (bindOk : Bool) (parsed : Option Nat)
    (port : Nat) :
    (bindOk = true → parsed = none →
      redirectConnect bindOk parsed port = ConnectOutcome.panicked) ∧
    (∀ t, redirectConnect bindOk parsed port = ConnectOutcome.ok t →
      parsed = some t.ip ∧ bindOk = true ∧ t.port = port) := by
  constructor
  · intro hb hp
    subst hb
    subst hp
    rfl
  · intro t h
    cases bindOk with
    | false => exact absurd h (by simp [redirectConnect])
    | true =>
      cases parsed with
      | none => exact absurd h (by simp [redirectConnect])
      | some ip =>
        have h' : ConnectOutcome.ok ⟨ip, port⟩ = ConnectOutcome.ok t := h
        cases h'
        exact ⟨rfl, rfl, rfl⟩

/-- Witness for C10 at a concrete bind result, parse outcome and port. -/
theorem redirect_connect_parse_unwrap_witness :
    redirectConnect true none 53 = ConnectOutcome.panicked ∧
    (some 8 = some (Addr.mk 8 53).ip ∧ true = true ∧ (Addr.mk 8 53).port = 53) :=
  ⟨(redirect_connect_parse_unwrap true none 53).1 rfl rfl,
   (redirect_connect_parse_unwrap true (some 8) 53).2 ⟨8, 53⟩ rfl⟩

/-- Elements of `enumFrom k l` carry indices at least `k`. -/
theorem mem_enumFrom_ge {k : Nat} {l : List Nat} {y : Nat × Nat}
    (h : y ∈ enumFrom k l) : k ≤ y.1 := by
  induction l generalizing k with
  | nil => exact absurd h (List.not_mem_nil y)
  | cons x xs ih =>
    rcases List.mem_cons.mp h with rfl | h
    · exact Nat.le_refl k
    · exact Nat.le_of_succ_le (ih h)

/-- The indices of `enumFrom k l` are strictly increasing. -/
theorem enumFrom_pairwise (k : Nat) (l : List Nat) :
    (enumFrom k l).Pairwise (fun a b => a.1 < b.1) := by
  induction l generalizing k with
  | nil => exact List.Pairwise.nil
  | cons x xs ih =>
    refine List.Pairwise.cons ?_ (ih (k + 1))
    intro y hy
    exact Nat.lt_of_lt_of_le (Nat.lt_succ_self k) (mem_enumFrom_ge hy)

/-- Every element of `enumFrom k l` reads back from `l`. -/
theorem mem_enumFrom_getD {k : Nat} {l : List Nat} {y : Nat × Nat}
    (h : y ∈ enumFrom k l) :
    k ≤ y.1 ∧ y.1 - k < l.length ∧ l.getD (y.1 - k) 0 = y.2 := by
  induction l generalizing k with
  | nil => exact absurd h (List.not_mem_nil y)
  | cons x xs ih =>
    rcases List.mem_cons.mp h with rfl | h
    · exact ⟨Nat.le_refl k, by simp, by simp⟩
    · obtain ⟨h1, h2, h3⟩ := ih h
      have hk : k ≤ y.1 := Nat.le_of_succ_le h1
      have hs : y.1 - k = (y.1 - (k + 1)) + 1 := by omega
      refine ⟨hk, ?_, ?_⟩
      · rw [hs, List.length_cons]
        omega
      · rw [hs, List.getD_cons_succ]
        exact h3

/-- Conversely, every in-range position of `l` appears in `enumFrom k l`. -/
theorem getD_mem_enumFrom (k j : Nat) (l : List Nat) (h : j < l.length) :
    (k + j, l.getD j 0) ∈ enumFrom k l := by
  induction l generalizing k j with
  | nil => simp at h
  | cons x xs ih =>
    cases j with
    | zero => simp [enumFrom]
    | succ m =>
      have hm : m < xs.length := by
        simp only [List.length_cons] at h
        omega
      have hmem := ih (k + 1) m hm
      have heq : k + (m + 1) = (k + 1) + m := by omega
      rw [List.getD_cons_succ, heq]
      exact List.mem_cons_of_mem _ hmem

/-- An enumeration has the length of the underlying list. -/
theorem enumFrom_length (k : Nat) (l : List Nat) :
    (enumFrom k l).length = l.length := by
  induction l generalizing k with
  | nil => rfl
  | cons x xs ih => simp [enumFrom, ih]

/-- Shifting the start index shifts every index. -/
theorem enumFrom_shift (k : Nat) (l : List Nat) :
    enumFrom (k + 1) l = (enumFrom k l).map (fun p => (p.1 + 1, p.2)) := by
  induction l generalizing k with
  | nil => rfl
  | cons x xs ih => simp [enumFrom, ih]

/-- The indices of an enumeration from `0` are exactly `0..len`. -/
theorem enumFrom_map_fst (l : List Nat) :
    (enumFrom 0 l).map Prod.fst = List.range l.length := by
  induction l with
  | nil => rfl
  | cons x xs ih =>
    have h1 : enumFrom 1 xs = (enumFrom 0 xs).map (fun p => (p.1 + 1, p.2)) :=
      enumFrom_shift 0 xs
    simp [enumFrom, h1, List.map_map, List.range_succ_eq_map, ← ih,
      Function.comp_def]

/-- Inserting keeps the elements: `insertMeasure m l` permutes `m :: l`. -/
theorem insertMeasure_perm (m : Nat × Nat) (l : List (Nat × Nat)) :
    (insertMeasure m l).Perm (m :: l) := by
  induction l with
  | nil => exact List.Perm.refl [m]
  | cons x xs ih =>
    by_cases hx : x.2 < m.2
    · rw [insertMeasure, if_pos hx]
      exact (ih.cons x).trans (List.Perm.swap m x xs)
    · rw [insertMeasure, if_neg hx]

/-- Sorting keeps the elements. -/
theorem sortMeasures_perm (l : List (Nat × Nat)) :
    (sortMeasures l).Perm l := by
  induction l with
  | nil => exact List.Perm.refl []
  | cons x xs ih => exact (insertMeasure_perm x (sortMeasures xs)).trans (ih.cons x)

/-- Membership after an insertion. -/
theorem mem_insertMeasure {y m : Nat × Nat} {l : List (Nat × Nat)}
    (h : y ∈ insertMeasure m l) : y = m ∨ y ∈ l :=
  List.mem_cons.mp ((insertMeasure_perm m l).mem_iff.mp h)

/-- Inserting an element whose index is below every index present
preserves the "latency first, index second" sorted order. -/
theorem insertMeasure_pairwise {m : Nat × Nat} {l : List (Nat × Nat)}
    (hp : l.Pairwise mLt) (hidx : ∀ y ∈ l, m.1 < y.1) :
    (insertMeasure m l).Pairwise mLt := by
  induction l with
  | nil => exact List.pairwise_singleton mLt m
  | cons x xs ih =>
    obtain ⟨hx1, hx2⟩ := List.pairwise_cons.mp hp
    by_cases hx : x.2 < m.2
    · rw [insertMeasure, if_pos hx]
      refine List.pairwise_cons.mpr
        ⟨?_, ih hx2 (fun y hy => hidx y (List.mem_cons_of_mem x hy))⟩
      intro y hy
      rcases mem_insertMeasure hy with rfl | hy
      · exact Or.inl hx
      · exact hx1 y hy
    · rw [insertMeasure, if_neg hx]
      have hmlex : m.2 ≤ x.2 := Nat.le_of_not_lt hx
      have hmx : mLt m x := by
        rcases Nat.lt_or_eq_of_le hmlex with hlt | heq
        · exact Or.inl hlt
        · exact Or.inr ⟨heq, hidx x (List.mem_cons_self x xs)⟩
      refine List.pairwise_cons.mpr ⟨?_, hp⟩
      intro y hy
      rcases List.mem_cons.mp hy with rfl | hy
      · exact hmx
      · rcases hx1 y hy with hlt | hpair
        · exact Or.inl (Nat.lt_of_le_of_lt hmlex hlt)
        · rcases Nat.lt_or_eq_of_le hmlex with h2 | h2
          · exact Or.inl (hpair.1 ▸ h2)
          · exact Or.inr ⟨h2.trans hpair.1, hidx y (List.mem_cons_of_mem x hy)⟩

/-- Stable sorting by latency of a list with strictly increasing indices
yields the "latency first, index second" sorted order. -/
theorem sortMeasures_pairwise {l : List (Nat × Nat)}
    (hp : l.Pairwise (fun a b => a.1 < b.1)) :
    (sortMeasures l).Pairwise mLt := by
  induction l with
  | nil => exact List.Pairwise.nil
  | cons x xs ih =>
    obtain ⟨hx1, hx2⟩ := List.pairwise_cons.mp hp
    show (insertMeasure x (sortMeasures xs)).Pairwise mLt
    refine insertMeasure_pairwise (ih hx2) ?_
    intro y hy
    exact hx1 y ((sortMeasures_perm xs).mem_iff.mp hy)

/-- C2: after any health-check iteration over children with measured
latencies `ls`: with `failover = false` the rewritten schedule is exactly
`[i]` where `i` is the least index attaining the minimum latency, and
with `failover = true` it is a permutation of `0..n` sorted by ascending
latency with ties broken by child index. -/
theorem healthcheck_schedule_ranked (ls : List Nat) (h : ls ≠ []) :
    (∃ i, healthCheckSchedule false ls = some [i] ∧ i < ls.length ∧
      (∀ j, j < ls.length → latOf ls i ≤ latOf ls j) ∧
      (∀ j, j < ls.length → latOf ls j = latOf ls i → i ≤ j)) ∧
    (∃ s, healthCheckSchedule true ls = some s ∧
      s.Perm (List.range ls.length) ∧ s.Pairwise (schedLt ls)) := by
  have hperm : (sortMeasures (enumFrom 0 ls)).Perm (enumFrom 0 ls) :=
    sortMeasures_perm _
  have hpw : (sortMeasures (enumFrom 0 ls)).Pairwise mLt :=
    sortMeasures_pairwise (enumFrom_pairwise 0 ls)
  have hmemE : ∀ y : Nat × Nat, y ∈ enumFrom 0 ls →
      y.1 < ls.length ∧ latOf ls y.1 = y.2 := by
    intro y hy
    obtain ⟨h1, h2, h3⟩ := mem_enumFrom_getD hy
    rw [Nat.sub_zero] at h2 h3
    exact ⟨h2, h3⟩
  have hgetE : ∀ j, j < ls.length → (j, latOf ls j) ∈ enumFrom 0 ls := by
    intro j hj
    have hg := getD_mem_enumFrom 0 j ls hj
    rwa [Nat.zero_add] at hg
  have hlpos : 0 < ls.length := List.length_pos.mpr h
  have hlen : (sortMeasures (enumFrom 0 ls)).length = ls.length := by
    rw [hperm.length_eq, enumFrom_length]
  have hne : sortMeasures (enumFrom 0 ls) ≠ [] := by
    intro h0
    rw [h0, List.length_nil] at hlen
    omega
  obtain ⟨m, rest, hS⟩ := List.exists_cons_of_ne_nil hne
  have hmS : m ∈ sortMeasures (enumFrom 0 ls) := by
    rw [hS]
    exact List.mem_cons_self m rest
  have hmE := hmemE m (hperm.mem_iff.mp hmS)
  have hhead : ∀ y ∈ rest, mLt m y :=
    (List.pairwise_cons.mp (hS ▸ hpw)).1
  constructor
  · refine ⟨m.1, ?_, hmE.1, ?_, ?_⟩
    · simp [healthCheckSchedule, hS]
    · intro j hj
      have hjS : (j, latOf ls j) ∈ sortMeasures (enumFrom 0 ls) :=
        hperm.mem_iff.mpr (hgetE j hj)
      rw [hS] at hjS
      rw [hmE.2]
      rcases List.mem_cons.mp hjS with heq | hjrest
      · have h2 : latOf ls j = m.2 := congrArg Prod.snd heq
        omega
      · rcases hhead _ hjrest with hlt | hpair
        · exact Nat.le_of_lt hlt
        · exact Nat.le_of_eq hpair.1
    · intro j hj hjeq
      have hjS : (j, latOf ls j) ∈ sortMeasures (enumFrom 0 ls) :=
        hperm.mem_iff.mpr (hgetE j hj)
      rw [hS] at hjS
      rcases List.mem_cons.mp hjS with heq | hjrest
      · have h1 : j = m.1 := congrArg Prod.fst heq
        omega
      · rcases hhead _ hjrest with hlt | hpair
        · have hlt' : m.2 < latOf ls j := hlt
          rw [hjeq, hmE.2] at hlt'
          exact absurd hlt' (Nat.lt_irrefl _)
        · have hidx' : m.1 < j := hpair.2
          exact Nat.le_of_lt hidx'
  · refine ⟨(sortMeasures (enumFrom 0 ls)).map Prod.fst, ?_, ?_, ?_⟩
    · simp [healthCheckSchedule]
    · have h1 := hperm.map Prod.fst
      rwa [enumFrom_map_fst] at h1
    · rw [List.pairwise_map]
      refine hpw.imp_of_mem ?_
      intro a b ha hb hab
      have haE := hmemE a (hperm.mem_iff.mp ha)
      have hbE := hmemE b (hperm.mem_iff.mp hb)
      rcases hab with hlt | hpair
      · exact Or.inl (by rw [haE.2, hbE.2]; exact hlt)
      · exact Or.inr ⟨by rw [haE.2, hbE.2]; exact hpair.1, hpair.2⟩

/-- C1: on the failover dial path, for a snapshot `s` whose indices are
all in range, the handler attempts each index in snapshot order bounded
by `fail_timeout`; errors and timeouts advance, the first success is
returned immediately, and an exhausted snapshot fails with the
outbound-exhausted error; the total time spent never exceeds
`|s| * fail_timeout`. -/
theorem failover_first_success_or_exhausted (n ft : Nat)
    (cs : Nat → ChildSpec) (s : List Nat) (h : ∀ i ∈ s, i < n) :
    (match List.find? (attemptSucceeds ft cs) s with
      | some w => (failoverHandle n ft cs s).1 = Except.ok (cs w).stream
      | none => (failoverHandle n ft cs s).1 =
          Except.error FailoverError.outboundExhausted) ∧
    (failoverHandle n ft cs s).2 ≤ s.length * ft := by
  induction s with
  | nil => exact ⟨rfl, Nat.zero_le _⟩
  | cons i rest ih =>
    have hi : i < n := h i (List.mem_cons_self i rest)
    have hni : ¬ n ≤ i := Nat.not_le.mpr hi
    obtain ⟨ih1, ih2⟩ := ih (fun j hj => h j (List.mem_cons_of_mem i hj))
    have hmul : (i :: rest).length * ft = rest.length * ft + ft := by
      rw [List.length_cons, Nat.succ_mul]
    by_cases hd : (cs i).dur ≤ ft
    · by_cases hk : (cs i).ok = true
      · have hsuc : attemptSucceeds ft cs i = true := by
          simp [attemptSucceeds, hd, hk]
        have hh : failoverHandle n ft cs (i :: rest) =
            (Except.ok (cs i).stream, (cs i).dur) := by
          simp [failoverHandle, attemptOutcome, hni, hd, hk]
        rw [List.find?_cons_of_pos _ hsuc, hh, hmul]
        exact ⟨rfl, by omega⟩
      · have hsuc : attemptSucceeds ft cs i = false := by
          simp [attemptSucceeds, hd, hk]
        have hh : failoverHandle n ft cs (i :: rest) =
            ((failoverHandle n ft cs rest).1,
              (cs i).dur + (failoverHandle n ft cs rest).2) := by
          simp [failoverHandle, attemptOutcome, hni, hd, hk]
        rw [List.find?_cons_of_neg _ (by simp [hsuc]), hh, hmul]
        refine ⟨?_, by omega⟩
        cases hf : List.find? (attemptSucceeds ft cs) rest with
        | some w =>
          rw [hf] at ih1
          exact ih1
        | none =>
          rw [hf] at ih1
          exact ih1
    · have hsuc : attemptSucceeds ft cs i = false := by
        simp [attemptSucceeds, hd]
      have hh : failoverHandle n ft cs (i :: rest) =
          ((failoverHandle n ft cs rest).1,
            ft + (failoverHandle n ft cs rest).2) := by
        simp [failoverHandle, attemptOutcome, hni, hd]
      rw [List.find?_cons_of_neg _ (by simp [hsuc]), hh, hmul]
      refine ⟨?_, by omega⟩
      cases hf : List.find? (attemptSucceeds ft cs) rest with
      | some w =>
        rw [hf] at ih1
        exact ih1
      | none =>
        rw [hf] at ih1
        exact ih1

/-- Witness for C1: two children that both succeed within the 5-second
timeout; the first scheduled child wins. -/
theorem failover_first_success_or_exhausted_witness :
    (∀ i ∈ [0, 1], i < 2) ∧
    ((failoverHandle 2 5 (fun _ => ⟨true, 42, 0, 3⟩) [0, 1]).1 =
        Except.ok 42 ∧
      (failoverHandle 2 5 (fun _ => ⟨true, 42, 0, 3⟩) [0, 1]).2 ≤ 10) :=
  ⟨by decide,
   failover_first_success_or_exhausted 2 5 (fun _ => ⟨true, 42, 0, 3⟩)
     [0, 1] (by decide)⟩

/-- C8 counterexample: with one child that succeeds instantly, the
snapshot `[0, 5]` contains the out-of-range index `5`, yet `handle`
returns the first child's stream rather than the invalid-configuration
error. -/
theorem failover_invalid_index_skipped_by_success :
    (failoverHandle 1 1 (fun _ => ⟨true, 7, 9, 0⟩) [0, 5]).1 = Except.ok 7 ∧
    5 ∈ ([0, 5] : List Nat) ∧ ¬ 5 < 1 :=
  ⟨rfl, by decide, by decide⟩

/-- C8 (amended): when the failover iteration reaches an out-of-range
index — every earlier index of the snapshot being in range with a failing
attempt — `handle` returns the invalid-configuration error immediately,
attempting neither that child nor any later index (the result is the same
for every suffix `s2`). -/
theorem failover_invalid_index_fatal (n ft : Nat) (cs : Nat → ChildSpec)
    (s1 : List Nat) (i : Nat) (s2 : List Nat)
    (h1 : ∀ j ∈ s1, j < n ∧ attemptSucceeds ft cs j = false) (h2 : n ≤ i) :
    (failoverHandle n ft cs (s1 ++ i :: s2)).1 =
      Except.error FailoverError.invalidConfig := by
  induction s1 with
  | nil => simp [failoverHandle, h2]
  | cons j rest ih =>
    obtain ⟨hj, hjf⟩ := h1 j (List.mem_cons_self j rest)
    have hnj : ¬ n ≤ j := Nat.not_le.mpr hj
    have ih' := ih (fun x hx => h1 x (List.mem_cons_of_mem j hx))
    by_cases hd : (cs j).dur ≤ ft
    · have hk : (cs j).ok = false := by
        revert hjf
        simp [attemptSucceeds, hd]
      simp [failoverHandle, hnj, attemptOutcome, hd, hk, ih']
    · simp [failoverHandle, hnj, attemptOutcome, hd, ih']

/-- Witness for C8 (amended): one failing in-range child before the
out-of-range index `5`. -/
theorem failover_invalid_index_fatal_witness :
    (∀ j ∈ [0], j < 1 ∧
      attemptSucceeds 1 (fun _ => ⟨false, 0, 9, 0⟩) j = false) ∧
    1 ≤ 5 ∧
    (failoverHandle 1 1 (fun _ => ⟨false, 0, 9, 0⟩) ([0] ++ 5 :: [2])).1 =
      Except.error FailoverError.invalidConfig :=
  ⟨by decide, by decide,
   failover_invalid_index_fatal 1 1 (fun _ => ⟨false, 0, 9, 0⟩) [0] 5 [2]
     (by decide) (by decide)⟩

/-- Witness for C2 on the latency list `[30, 10, 20, 10]` (children 1 and
3 tie at the minimum latency 10). -/
theorem healthcheck_schedule_ranked_witness :
    ([30, 10, 20, 10] : List Nat) ≠ [] ∧
    ((∃ i, healthCheckSchedule false [30, 10, 20, 10] = some [i] ∧
       i < [30, 10, 20, 10].length ∧
       (∀ j, j < [30, 10, 20, 10].length →
         latOf [30, 10, 20, 10] i ≤ latOf [30, 10, 20, 10] j) ∧
       (∀ j, j < [30, 10, 20, 10].length →
         latOf [30, 10, 20, 10] j = latOf [30, 10, 20, 10] i → i ≤ j)) ∧
     (∃ s, healthCheckSchedule true [30, 10, 20, 10] = some s ∧
       s.Perm (List.range [30, 10, 20, 10].length) ∧
       s.Pairwise (schedLt [30, 10, 20, 10]))) :=
  ⟨by decide, healthcheck_schedule_ranked [30, 10, 20, 10] (by decide)⟩

end ILeaf
